import Mathlib

set_option autoImplicit false

/-!
Shallow embedding of the keybinding resolution engine of `src/input.cpp`
(Cataclysm-DDA input subsystem): the keycode registry, the layered binding
store, the context resolver, the per-session action lookup and the editing
protocol, together with theorems checking the natural-language specification
against this code.

Conventions of the embedding:
* `std::map` is modelled as an association list with unique keys read through
  a first-match lookup (`findA`); `operator[]` materialisation is explicit.
* the `translation` type is modelled as `String`; `no_translation s` is `s`,
  `translation()` (the empty translation) is `""` and `.empty()` is `= ""`.
* mutation of the process-wide `input_manager` is explicit state passing:
  every member function that can mutate the table returns the new manager.
-/

namespace Input

/-- Device family tag of an input event (`input_event_t` in `input_enums.h`). -/
inductive input_event_t where
  | error
  | timeout
  | keyboard_char
  | keyboard_code
  | gamepad
  | mouse
deriving DecidableEq, Repr

/-- Keyboard modifier (`keymod_t`). -/
inductive keymod_t where
  | ctrl
  | alt
  | shift
deriving DecidableEq, Repr

/-- The `std::set<keymod_t>` of an event, modelled extensionally as the three
membership flags (equality of this structure is exactly set equality). -/
structure modifier_set where
  ctrl : Bool
  alt : Bool
  shift : Bool
deriving DecidableEq, Repr

/-- The empty modifier set. -/
def no_mods : modifier_set := ⟨false, false, false⟩

/-- An input event: device family tag, modifier set and ordered key-code
sequence.  Per the data model, two events are equal iff type, modifier set
and code sequence are all equal, which is structural equality here.  Display
oriented fields (mouse position, Android shortcut data) do not take part in
event equality and do not feed back into any control flow modelled here, so
they are omitted. -/
structure input_event where
  type : input_event_t
  modifiers : modifier_set
  sequence : List Int
deriving DecidableEq, Repr

/-- `action_attributes`: display name (a `translation`, modelled as `String`),
ordered bound event list, and the user-created marker. -/
structure action_attributes where
  name : String
  input_events : List input_event
  is_user_created : Bool
deriving DecidableEq, Repr

/-- A default-constructed `action_attributes` (empty name, no events, not
user-created). -/
def default_attributes : action_attributes := ⟨"", [], false⟩

/-! ### Association lists standing for `std::map` -/

/-- First-match lookup in an association list (the model of `std::map::find`).
Maps built by this development keep keys unique, so first-match is the match. -/
def findA {κ α : Type} [DecidableEq κ] : List (κ × α) → κ → Option α
  | [], _ => none
  | (k, v) :: t, k0 => if k = k0 then some v else findA t k0

/-- Insert-or-replace (the model of `std::map::operator[] = v`): replaces the
first binding of the key, or appends a new binding. -/
def setA {κ α : Type} [DecidableEq κ] : List (κ × α) → κ → α → List (κ × α)
  | [], k0, v0 => [(k0, v0)]
  | (k, v) :: t, k0, v0 => if k = k0 then (k0, v0) :: t else (k, v) :: setA t k0 v0

/-- Ensure a key is present (the model of a bare `std::map::operator[]` read,
which default-constructs a missing entry). -/
def ensureA {κ α : Type} [DecidableEq κ] (l : List (κ × α)) (k : κ) (d : α) :
    List (κ × α) :=
  match findA l k with
  | some _ => l
  | none => setA l k d

/-- Remove the first binding of a key (the model of `std::map::erase`). -/
def eraseA {κ α : Type} [DecidableEq κ] : List (κ × α) → κ → List (κ × α)
  | [], _ => []
  | (k, v) :: t, k0 => if k = k0 then t else (k, v) :: eraseA t k0

/-- Key uniqueness: the well-formedness invariant of every map modelled here. -/
def nodupKeys {κ α : Type} (l : List (κ × α)) : Prop :=
  (l.map Prod.fst).Nodup

instance {κ α : Type} [DecidableEq κ] (l : List (κ × α)) : Decidable (nodupKeys l) := by
  unfold nodupKeys
  infer_instance

/-! ### The manager state -/

/-- A context: action id → attributes (`t_actions`). -/
abbrev t_actions := List (String × action_attributes)

/-- The binding table: context name → context (`t_action_contexts`). -/
abbrev t_action_contexts := List (String × t_actions)

/-- The process-wide `input_manager` state: the binding table, the four
per-device-family bidirectional keycode registries, and the current input
timeout. -/
structure input_manager where
  action_contexts : t_action_contexts
  keyboard_char_keycode_to_keyname : List (Int × String)
  keyboard_code_keycode_to_keyname : List (Int × String)
  gamepad_keycode_to_keyname : List (Int × String)
  mouse_keycode_to_keyname : List (Int × String)
  keyboard_char_keyname_to_keycode : List (String × Int)
  keyboard_code_keyname_to_keycode : List (String × Int)
  gamepad_keyname_to_keycode : List (String × Int)
  mouse_keyname_to_keycode : List (String × Int)
  input_timeout : Int
deriving DecidableEq, Repr

/-- The distinguished global context name. -/
def default_context_id : String := "default"

/-- A manager with an empty table, empty registries and timeout disabled. -/
def empty_manager : input_manager := ⟨[], [], [], [], [], [], [], [], [], -1⟩

/-- `input_manager::get_default_action_name` (lines 702-716): the display name
of the action in the global context when one exists there, otherwise
`no_translation( action_id )`, i.e. the action id itself. -/
def get_default_action_name (m : input_manager) (action_id : String) : String :=
  match findA m.action_contexts default_context_id with
  | none => action_id
  | some acts =>
    match findA acts action_id with
    | some attrs => attrs.name
    | none => action_id

/-- The context-local lookup made first by `get_action_attributes`: consulted
only when `context` is not the global default. -/
def local_find (m : input_manager) (action_id context : String) :
    Option action_attributes :=
  if context = default_context_id then none
  else (findA m.action_contexts context).bind fun acts => findA acts action_id

/-- `input_manager::get_action_attributes` (lines 665-700).  Returns the
resolved attributes, the `overwrites_default` flag, and the possibly mutated
manager: a read materialises a missing global entry (with a synthesized
display name and an empty event list), and a bare `operator[]` on the table
materialises a missing global context. -/
def get_action_attributes (m : input_manager) (action_id context : String) :
    action_attributes × Bool × input_manager :=
  match local_find m action_id context with
  | some attrs => (attrs, true, m)
  | none =>
    let contexts1 := ensureA m.action_contexts default_context_id []
    let dacts := (findA m.action_contexts default_context_id).getD []
    match findA dacts action_id with
    | some attrs => (attrs, false, { m with action_contexts := contexts1 })
    | none =>
      let attrs : action_attributes :=
        { name := get_default_action_name m action_id, input_events := [],
          is_user_created := false }
      let contexts2 := setA contexts1 default_context_id (setA dacts action_id attrs)
      (attrs, false, { m with action_contexts := contexts2 })

/-- The event list of the resolved attributes, as a pure projection
(`input_manager::get_input_for_action` without the state effect). -/
def resolved_events (m : input_manager) (action_id context : String) :
    List input_event :=
  (get_action_attributes m action_id context).1.input_events

/-- No context in the table carries an entry for this action id. -/
def absent_everywhere (m : input_manager) (action_id : String) : Prop :=
  ∀ p ∈ m.action_contexts, findA p.2 action_id = none

instance (m : input_manager) (action_id : String) :
    Decidable (absent_everywhere m action_id) := by
  unfold absent_everywhere
  infer_instance

/-- The ordered (context, action id) pairs enumerated by `input_manager::save`
(lines 340-415), which serialises every context and every action id within it,
skipping none. -/
def save_ids (m : input_manager) : List (String × String) :=
  m.action_contexts.flatMap fun p => p.2.map fun q => (p.1, q.1)

/-- Two manager states that resolve every (action id, context) query to the
same attributes and the same `is_local` flag. -/
def same_resolution (m m2 : input_manager) : Prop :=
  ∀ action_id context : String,
    (get_action_attributes m2 action_id context).1
      = (get_action_attributes m action_id context).1
    ∧ (get_action_attributes m2 action_id context).2.1
      = (get_action_attributes m action_id context).2.1

/-! ### Sentinel action ids (lines 812-816) and the input session -/

def CATA_ERROR : String := "ERROR"

def ANY_INPUT : String := "ANY_INPUT"

def HELP_KEYBINDINGS : String := "HELP_KEYBINDINGS"

def COORDINATE : String := "COORDINATE"

def TIMEOUT : String := "TIMEOUT"

/-- The per-UI-scope `input_context` state driving lookup and editing: the
ordered registered action list, the context (category) name, the any-input
and coordinate-input registration flags, and the per-action display-name
overrides.  Pointer-coordinate bookkeeping fields are omitted: they never
feed back into the control flow modelled here. -/
structure input_context where
  registered_actions : List String
  category : String
  registered_any_input : Bool
  handling_coordinate_input : Bool
  action_name_overrides : List (String × String)
deriving DecidableEq, Repr

/-- The scan of `input_context::input_to_action` (lines 818-832), with the
table side effect of each resolution threaded into the next. -/
def input_to_action_go (category : String) (inp : input_event) :
    input_manager → List String → String × input_manager
  | m, [] => (CATA_ERROR, m)
  | m, action :: rest =>
    let r := get_action_attributes m action category
    if inp ∈ r.1.input_events then (action, r.2.2)
    else input_to_action_go category inp r.2.2 rest

/-- `input_context::input_to_action`: first registered action whose resolved
bindings contain an event equal to the probe; `CATA_ERROR` when none. -/
def input_to_action (m : input_manager) (ctx : input_context) (inp : input_event) :
    String × input_manager :=
  input_to_action_go ctx.category inp m ctx.registered_actions

/-- Follows the spec text for `lookup`: linear scan in registration order,
first action whose bindings resolved against the starting table contain an
event equal to the probe, with the no-match sentinel otherwise. -/
def lookup_spec (m : input_manager) (category : String) (inp : input_event) :
    List String → String
  | [] => CATA_ERROR
  | action :: rest =>
    if inp ∈ resolved_events m action category then action
    else lookup_spec m category inp rest

/-! ### Display names and the conflict query (lines 775-788, 1586-1612) -/

/-- `input_context::get_action_name` (lines 1586-1612): the session's
display-name override, else the resolved attributes' display name, else the
global entry's display name, else the action id itself.  `.translated()` is
the identity on the modelled strings (localisation is external). -/
def get_action_name (m : input_manager) (ctx : input_context) (action_id : String) :
    String × input_manager :=
  match findA ctx.action_name_overrides action_id with
  | some n => (n, m)
  | none =>
    let r1 := get_action_attributes m action_id ctx.category
    if r1.1.name ≠ "" then (r1.1.name, r1.2.2)
    else
      let r2 := get_action_attributes r1.2.2 action_id default_context_id
      if r2.1.name ≠ "" then (r2.1.name, r2.2.2)
      else (action_id, r2.2.2)

/-- The display name as a pure projection (state effect dropped). -/
def action_name_of (m : input_manager) (ctx : input_context) (action_id : String) :
    String :=
  (get_action_name m ctx action_id).1

/-- `input_context::action_uses_input` (lines 775-780): whether the action's
resolved bindings contain an event equal to the probe. -/
def action_uses_input (m : input_manager) (ctx : input_context) (action_id : String)
    (event : input_event) : Bool × input_manager :=
  let r := get_action_attributes m action_id ctx.category
  (decide (event ∈ r.1.input_events), r.2.2)

/-- Modelled from the spec: `enumerate_as_string` (an external display helper
from `output.h`, not part of this source) joins the non-empty strings
produced for the elements, in order; the model keeps the ordered list of
non-empty strings and leaves the final prose join external. -/
def enumerate_nonempty (l : List String) : List String :=
  l.filter fun s => s ≠ ""

/-- The per-action strings built by `input_context::get_conflicts`
(lines 782-788): the action's display name when the action uses the event,
the empty string otherwise, with table side effects threaded. -/
def get_conflicts_go (ctx : input_context) (event : input_event) :
    input_manager → List String → List String × input_manager
  | m, [] => ([], m)
  | m, action :: rest =>
    let u := action_uses_input m ctx action event
    let n := if u.1 then get_action_name u.2 ctx action else ("", u.2)
    let t := get_conflicts_go ctx event n.2 rest
    (n.1 :: t.1, t.2)

/-- `input_context::get_conflicts`: the ordered display names of every
registered action whose resolved bindings contain the event. -/
def get_conflicts (m : input_manager) (ctx : input_context) (event : input_event) :
    List String × input_manager :=
  let r := get_conflicts_go ctx event m ctx.registered_actions
  (enumerate_nonempty r.1, r.2)

/-! ### The blocking read-and-resolve loop (lines 1045-1104) -/

/-- `input_manager::set_timeout`: the manager's timeout is a plain field. -/
def set_timeout (m : input_manager) (t : Int) : input_manager :=
  { m with input_timeout := t }

/-- `input_manager::reset_timeout`.  Modelled from the spec: the reset
sentinel disables the timeout (a negative value; the member lives in
`input.h`, outside this source file). -/
def reset_timeout (m : input_manager) : input_manager :=
  set_timeout m (-1)

/-- The wait loop of `input_context::handle_input( timeout )` (lines
1058-1101), instrumented for the frame property: `menu` is the effect of
`display_menu()` on the manager (an arbitrary function, so it covers nested
editing sessions mutating the timeout); `stream` is the external event
source consumed by `get_input_event`; the returned list records the
manager's timeout at each wait.  `none` models the loop blocking forever on
an exhausted source.  The pointer-coordinate bookkeeping of the mouse branch
is omitted (it does not feed back into control flow or the manager). -/
def handle_input_go (menu : input_manager → input_manager) (ctx : input_context)
    (t : Int) : input_manager → List input_event → List Int →
      Option (String × input_manager × List Int)
  | _, [], _ => none
  | m, e :: rest, waits =>
    let waits2 := waits ++ [m.input_timeout]
    if e.type = input_event_t.timeout then some (TIMEOUT, m, waits2)
    else
      let r := input_to_action m ctx e
      if r.1 = HELP_KEYBINDINGS then
        some (HELP_KEYBINDINGS, set_timeout (menu (reset_timeout r.2)) t, waits2)
      else if e.type = input_event_t.mouse ∧ ¬ctx.handling_coordinate_input
          ∧ r.1 = CATA_ERROR then
        handle_input_go menu ctx t r.2 rest waits2
      else if r.1 ≠ CATA_ERROR then some (r.1, r.2, waits2)
      else if ctx.registered_any_input then some (ANY_INPUT, r.2, waits2)
      else handle_input_go menu ctx t r.2 rest waits2

/-- `input_context::handle_input( timeout )` (lines 1050-1104): saves the
manager's timeout, sets it when the argument is non-negative, runs the wait
loop, and restores the saved value on the single exit path after the loop. -/
def handle_input (menu : input_manager → input_manager) (ctx : input_context)
    (t : Int) (m : input_manager) (stream : List input_event) :
    Option (String × input_manager × List Int) :=
  let old := m.input_timeout
  let m1 := if t ≥ 0 then set_timeout m t else m
  match handle_input_go menu ctx t m1 stream [] with
  | none => none
  | some (a, m2, waits) => some (a, set_timeout m2 old, waits)

/-! ### Keycode registry and portable names (lines 54-71, 417-439, 562-648) -/

/-- Fuel-driven accumulator loop producing the decimal digits of a natural
number, most significant first (structural recursion, so concrete values
reduce inside the kernel).  One division step per unit of fuel; fuel `n`
always suffices. -/
def natDigitsGo : Nat → Nat → List Char → List Char
  | 0, n, acc => Nat.digitChar n :: acc
  | fuel + 1, n, acc =>
    if n < 10 then Nat.digitChar n :: acc
    else natDigitsGo fuel (n / 10) (Nat.digitChar (n % 10) :: acc)

/-- Decimal digits of a natural number, most significant first. -/
def natDigits (n : Nat) : List Char := natDigitsGo n n []

/-- The same digit list by division recursion (the reference shape used in
proofs). -/
def digitsStr (n : Nat) : List Char :=
  if n < 10 then [Nat.digitChar n]
  else digitsStr (n / 10) ++ [Nat.digitChar (n % 10)]
termination_by n
decreasing_by exact Nat.div_lt_self (by omega) (by omega)

/-- `int_to_str` (lines 64-71): locale-independent decimal rendering. -/
def int_to_str (n : Int) : String :=
  if n < 0 then ⟨'-' :: natDigits n.natAbs⟩ else ⟨natDigits n.toNat⟩

/-- Numeric value of a decimal digit character. -/
def digitToNat (c : Char) : Nat := c.toNat - 48

/-- Value of a digit run, most significant first. -/
def parseDigits (cs : List Char) : Nat :=
  cs.foldl (fun a c => a * 10 + digitToNat c) 0

/-- `str_to_int` (lines 54-62): `std::istream` integer extraction — an
optional sign, then the maximal digit run; extraction failure (no digits)
yields zero, as the stream value-initialises the result on failure. -/
def str_to_int (s : String) : Int :=
  match s.data with
  | [] => 0
  | c :: rest =>
    if c = '-' then -Int.ofNat (parseDigits (rest.takeWhile Char.isDigit))
    else if c = '+' then Int.ofNat (parseDigits (rest.takeWhile Char.isDigit))
    else Int.ofNat (parseDigits ((c :: rest).takeWhile Char.isDigit))

/-- `input_manager::add_keyboard_char_keycode_pair` (lines 417-421): register
into both directions of the character-keyboard family tables (a later
registration for the same code or name silently overwrites the earlier
pairing); the other three families are analogous. -/
def add_keyboard_char_keycode_pair (m : input_manager) (ch : Int) (name : String) :
    input_manager :=
  { m with keyboard_char_keycode_to_keyname := setA m.keyboard_char_keycode_to_keyname ch name, keyboard_char_keyname_to_keycode := setA m.keyboard_char_keyname_to_keycode name ch }

/-- The name→code table consulted by `get_keycode` for a device family
(`nullptr` — here `none` — for the error/timeout pseudo-families). -/
def keyname_to_keycode_map (m : input_manager) :
    input_event_t → Option (List (String × Int))
  | input_event_t.keyboard_char => some m.keyboard_char_keyname_to_keycode
  | input_event_t.keyboard_code => some m.keyboard_code_keyname_to_keycode
  | input_event_t.gamepad => some m.gamepad_keyname_to_keycode
  | input_event_t.mouse => some m.mouse_keyname_to_keycode
  | _ => none

/-- The code→name table consulted by `get_keyname`. -/
def keycode_to_keyname_map (m : input_manager) :
    input_event_t → Option (List (Int × String))
  | input_event_t.keyboard_char => some m.keyboard_char_keycode_to_keyname
  | input_event_t.keyboard_code => some m.keyboard_code_keycode_to_keyname
  | input_event_t.gamepad => some m.gamepad_keycode_to_keyname
  | input_event_t.mouse => some m.mouse_keycode_to_keyname
  | _ => none

/-- The `"UNKNOWN_"` marker, as characters. -/
def unknownTag : List Char := ['U', 'N', 'K', 'N', 'O', 'W', 'N', '_']

/-- `name.compare( 0, 8, "UNKNOWN_" ) == 0` together with `name.substr( 8 )`:
the suffix, when the name carries the marker. -/
def stripUnknown (s : String) : Option String :=
  if s.data.take 8 = unknownTag then some ⟨s.data.drop 8⟩ else none

/-- The table-independent part of `input_manager::get_keycode`
(lines 562-592): the registered code, else the parsed `UNKNOWN_<digits>`
escape hatch, else the zero sentinel. -/
def get_keycode_in (mp : Option (List (String × Int))) (name : String) : Int :=
  match mp.bind fun l => findA l name with
  | some code => code
  | none =>
    match stripUnknown name with
    | some digits => str_to_int digits
    | none => 0

/-- `input_manager::get_keycode`. -/
def get_keycode (m : input_manager) (inp_type : input_event_t) (name : String) :
    Int :=
  get_keycode_in (keyname_to_keycode_map m inp_type) name

/-- Modelled from the spec: the non-portable miss of `get_keyname` renders a
localized "unknown key" display string through external formatting. -/
def localized_unknown_key (ch : Int) : String :=
  "unknown key " ++ int_to_str ch

/-- The table-independent part of `input_manager::get_keyname`
(lines 594-648).  With `portable = true` every found entry returns the
stored registered name (each special-case branch of the source does); the
non-portable display paths go through external localisation, modelled as
the stored name; a miss yields `UNKNOWN_<code>` when portable and the
localized unknown-key string otherwise. -/
def get_keyname_in (mp : Option (List (Int × String))) (ch : Int) (portable : Bool) :
    String :=
  match mp.bind fun l => findA l ch with
  | some name => name
  | none =>
    if portable then "UNKNOWN_" ++ int_to_str ch
    else localized_unknown_key ch

/-- `input_manager::get_keyname`. -/
def get_keyname (m : input_manager) (ch : Int) (inp_type : input_event_t)
    (portable : Bool) : String :=
  get_keyname_in (keycode_to_keyname_map m inp_type) ch portable

/-! ### Example fixtures used by witnesses and counterexamples -/

/-- A registry with character-keyboard code `65` registered as `"A"`. -/
def registry_manager : input_manager :=
  add_keyboard_char_keycode_pair empty_manager 65 "A"

/-- Example table: global defaults bind `"UP"`, and the `"vehicle"` context
carries a local override for `"UP"`. -/
def up_global_attrs : action_attributes :=
  ⟨"Move up", [⟨input_event_t.keyboard_char, no_mods, [107]⟩], false⟩

def up_vehicle_attrs : action_attributes :=
  ⟨"", [⟨input_event_t.keyboard_char, no_mods, [119]⟩], true⟩

def vehicle_manager : input_manager :=
  { empty_manager with action_contexts :=
      [(default_context_id, [("UP", up_global_attrs)]),
       ("vehicle", [("UP", up_vehicle_attrs)])] }

/-- Example session: `"FOO"` and `"BAR"` registered in that order, both bound
to the same probe event in the global context. -/
def probe_event : input_event := ⟨input_event_t.keyboard_char, no_mods, [120]⟩

def foo_attrs : action_attributes := ⟨"Foo", [probe_event], false⟩

/-- A second probe bound only to `"BAR"`. -/
def bar_only_event : input_event := ⟨input_event_t.keyboard_char, no_mods, [121]⟩

def bar_attrs : action_attributes := ⟨"Bar", [probe_event, bar_only_event], false⟩

def foobar_manager : input_manager :=
  { empty_manager with action_contexts :=
      [(default_context_id, [("FOO", foo_attrs), ("BAR", bar_attrs)])] }

def foobar_session : input_context :=
  ⟨["FOO", "BAR"], default_context_id, false, false, []⟩

/-! ### Editing protocol (lines 718-773) -/

/-- The table right after `actions[action_descriptor]` (line 729)
default-constructs the missing entry: the context is materialised and the
entry is present with default-constructed attributes, name still empty. -/
def goce_inserted (m : input_manager) (action_descriptor context : String) :
    input_manager :=
  { m with action_contexts := (setA (ensureA m.action_contexts context []) context (setA ((findA m.action_contexts context).getD []) action_descriptor default_attributes)) }

/-- The attributes the fresh entry carries after lines 730-731: the display
name from `get_default_action_name` evaluated on the post-insertion table
(so a creation in the global context sees its own just-inserted empty-named
entry and is named with the empty string), and the user-created flag. -/
def goce_created_attrs (m : input_manager) (action_descriptor context : String) :
    action_attributes :=
  ⟨get_default_action_name (goce_inserted m action_descriptor context) action_descriptor,
    [], true⟩

/-- The manager state once `get_or_create_event_list` has created a missing
entry: the default-constructed entry overwritten in place with the
synthesized name and the user-created flag. -/
def goce_created (m : input_manager) (action_descriptor context : String) :
    input_manager :=
  { goce_inserted m action_descriptor context with action_contexts := (setA (goce_inserted m action_descriptor context).action_contexts context (setA ((findA (goce_inserted m action_descriptor context).action_contexts context).getD []) action_descriptor (goce_created_attrs m action_descriptor context))) }

/-- `input_manager::get_or_create_event_list` (lines 718-735): a bare
`operator[]` materialises a missing context; a missing action entry is
default-constructed by `operator[]` (line 729) and only then named from
`get_default_action_name` — evaluated on the post-insertion table — and
marked user-created (lines 730-731); the entry's event list is returned. -/
def get_or_create_event_list (m : input_manager) (action_descriptor context : String) :
    List input_event × input_manager :=
  let acts := (findA m.action_contexts context).getD []
  let contexts1 := ensureA m.action_contexts context []
  match findA acts action_descriptor with
  | some attrs => (attrs.input_events, { m with action_contexts := contexts1 })
  | none => ([], goce_created m action_descriptor context)

/-- `input_manager::remove_input_for_action` (lines 737-761): a user-created
entry is deleted whole; otherwise an entry with an already empty event list
is deleted, and a non-empty event list is cleared in place. -/
def remove_input_for_action (m : input_manager) (action_descriptor context : String) :
    input_manager :=
  match findA m.action_contexts context with
  | none => m
  | some acts =>
    match findA acts action_descriptor with
    | none => m
    | some attrs =>
      if attrs.is_user_created then
        { m with action_contexts := setA m.action_contexts context (eraseA acts action_descriptor) }
      else if attrs.input_events = [] then
        { m with action_contexts := setA m.action_contexts context (eraseA acts action_descriptor) }
      else
        let contexts2 := setA m.action_contexts context
          (setA acts action_descriptor { attrs with input_events := [] })
        { m with action_contexts := contexts2 }

/-- `input_manager::add_input_for_action` (lines 763-773): appends the event
to the (created-on-demand) event list unless an equal event is already
present.  The C++ writes through a reference into the map; the entry is
guaranteed present after `get_or_create_event_list`, so re-find plus
write-back performs the same mutation. -/
def add_input_for_action (m : input_manager) (action_descriptor context : String)
    (event : input_event) : input_manager :=
  let r := get_or_create_event_list m action_descriptor context
  if event ∈ r.1 then r.2
  else
    let acts := (findA r.2.action_contexts context).getD []
    let attrs := (findA acts action_descriptor).getD default_attributes
    let contexts2 := setA r.2.action_contexts context
      (setA acts action_descriptor
        { attrs with input_events := attrs.input_events ++ [event] })
    { r.2 with action_contexts := contexts2 }

/-! ### Loading binding records (lines 202-338) -/

/-- One parsed `"keybinding"` record of a bindings file, after its `bindings`
array has been resolved into events: the action id, the context name (the
`category` member, defaulted to the global context when absent), the optional
display name, the optional `is_user_created` member, the schema version
(user files only; shipped files are treated as current-version), and the
resolved event list in file order. -/
structure binding_record where
  id : String
  context : String
  name : Option String
  is_user_created : Option Bool
  version : Nat
  events : List input_event
deriving DecidableEq, Repr

/-- The event list installed by `input_manager::load` (lines 321-332): a
user-preference record at schema version 0 carries forward every
raw-keyboard-code event of the pre-existing attributes for that action id in
the record's context, appended after the record's own events. -/
def record_events (is_user : Bool) (r : binding_record) (prior : action_attributes) :
    List input_event :=
  if is_user ∧ r.version = 0 then
    r.events ++ prior.input_events.filter fun e => e.type = input_event_t.keyboard_code
  else r.events

/-- Replace only the display name of an attributes record (the effect of
`action.read( "name", actions[action_id].name )`). -/
def with_name (a : action_attributes) (n : String) : action_attributes :=
  { a with name := n }

/-- The record's context after the `name`-member handling of
`input_manager::load` (lines 240-246): a non-user record with a `name` member
writes the display name into the entry, creating it on demand (`operator[]`);
otherwise the context is untouched (names in user preference files are
ignored). -/
def load_acts1 (m : input_manager) (is_user : Bool) (r : binding_record) : t_actions :=
  match is_user, r.name with
  | false, some n =>
    setA ((findA m.action_contexts r.context).getD []) r.id
      (with_name ((findA ((findA m.action_contexts r.context).getD []) r.id).getD default_attributes) n)
  | _, _ => (findA m.action_contexts r.context).getD []

/-- The application condition of `input_manager::load` (lines 314-317): a
record is applied unless it is a user-preference record with an empty
resolved event list for a non-global context with no pre-existing entry. -/
def load_applies (m : input_manager) (is_user : Bool) (r : binding_record) : Bool :=
  !is_user || !r.events.isEmpty || r.context == default_context_id
    || (findA (load_acts1 m is_user r) r.id).isSome

/-- The attributes installed by an applied record (lines 320-335): the prior
(or default-constructed) attributes with the event list replaced by
`record_events` and the user-created flag overwritten when the record
carries the member. -/
def load_final_attrs (m : input_manager) (is_user : Bool) (r : binding_record) :
    action_attributes :=
  let attrs := (findA (load_acts1 m is_user r) r.id).getD default_attributes
  { attrs with input_events := record_events is_user r attrs, is_user_created := r.is_user_created.getD attrs.is_user_created }

/-- The per-record body of `input_manager::load` (lines 237-336): the
record's context is materialised by a bare `operator[]`, the `name` member
is handled, and the record is applied unless the empty-binding suppression
condition rejects it. -/
def apply_record (m : input_manager) (is_user : Bool) (r : binding_record) :
    input_manager :=
  if load_applies m is_user r then
    { m with action_contexts := (setA (ensureA m.action_contexts r.context []) r.context (setA (load_acts1 m is_user r) r.id (load_final_attrs m is_user r))) }
  else
    { m with action_contexts := (setA (ensureA m.action_contexts r.context []) r.context (load_acts1 m is_user r)) }

/-- A key bound to the built-in `"HELP_KEYBINDINGS"` action. -/
def help_event : input_event := ⟨input_event_t.keyboard_char, no_mods, [63]⟩

def help_manager : input_manager :=
  { empty_manager with action_contexts :=
      [(default_context_id, [("HELP_KEYBINDINGS", ⟨"Help", [help_event], false⟩)])] }

def help_session : input_context :=
  ⟨["HELP_KEYBINDINGS"], default_context_id, false, false, []⟩

/-- A stale user-preference record: empty resolved event list, a non-default
context that does not exist yet, no pre-existing entry. -/
def stale_record : binding_record := ⟨"X", "foo", none, none, 1, []⟩

/-- A shipped (non-user) record binding `"UP"` in the global context. -/
def up_shipped_record : binding_record :=
  ⟨"UP", default_context_id, some "Move up", none, 1, [probe_event]⟩

def quit_char_event : input_event := ⟨input_event_t.keyboard_char, no_mods, [113]⟩

def quit_code_event : input_event := ⟨input_event_t.keyboard_code, no_mods, [113]⟩

def quit_default_attrs : action_attributes := ⟨"Quit", [quit_code_event], false⟩

/-- Pre-existing defaults: `"QUIT"` bound to a raw-keyboard-code event. -/
def quit_manager : input_manager :=
  { empty_manager with action_contexts :=
      [(default_context_id, [("QUIT", quit_default_attrs)])] }

/-- A version-0 user record for `"QUIT"` with one keyboard-char event. -/
def quit_record : binding_record :=
  ⟨"QUIT", default_context_id, none, none, 0, [quit_char_event]⟩

/-! ### Basic lookup lemmas -/

theorem findA_setA_self {κ α : Type} [DecidableEq κ] (l : List (κ × α)) (k : κ) (v : α) :
    findA (setA l k v) k = some v := by
  induction l with
  | nil => simp [setA, findA]
  | cons h t ih =>
    obtain ⟨k1, v1⟩ := h
    by_cases hk : k1 = k <;> simp [setA, findA, hk, ih]

theorem findA_setA_ne {κ α : Type} [DecidableEq κ] (l : List (κ × α)) (k k0 : κ) (v : α)
    (h : k0 ≠ k) : findA (setA l k v) k0 = findA l k0 := by
  have hk0 : ¬k = k0 := fun hh => h hh.symm
  induction l with
  | nil => simp [setA, findA, hk0]
  | cons hd t ih =>
    obtain ⟨k1, v1⟩ := hd
    by_cases hk : k1 = k
    · subst hk
      simp [setA, findA, hk0]
    · simp [setA, findA, hk, ih]

theorem findA_ensureA_ne {κ α : Type} [DecidableEq κ] (l : List (κ × α)) (k k0 : κ) (d : α)
    (h : k0 ≠ k) : findA (ensureA l k d) k0 = findA l k0 := by
  unfold ensureA
  cases findA l k with
  | none => simpa using findA_setA_ne l k k0 d h
  | some v => rfl

theorem findA_ensureA_self {κ α : Type} [DecidableEq κ] (l : List (κ × α)) (k : κ) (d : α) :
    findA (ensureA l k d) k = some ((findA l k).getD d) := by
  unfold ensureA
  cases hf : findA l k with
  | none => simpa using findA_setA_self l k d
  | some v => simp [hf]

theorem findA_eraseA_ne {κ α : Type} [DecidableEq κ] (l : List (κ × α)) (k k0 : κ)
    (h : k0 ≠ k) : findA (eraseA l k) k0 = findA l k0 := by
  have hk0 : ¬k = k0 := fun hh => h hh.symm
  induction l with
  | nil => simp [eraseA]
  | cons hd t ih =>
    obtain ⟨k1, v1⟩ := hd
    by_cases hk : k1 = k
    · subst hk
      simp [eraseA, findA, hk0]
    · simp [eraseA, findA, hk, ih]

theorem findA_notin {κ α : Type} [DecidableEq κ] (l : List (κ × α)) (k : κ)
    (h : k ∉ l.map Prod.fst) : findA l k = none := by
  induction l with
  | nil => rfl
  | cons hd t ih =>
    obtain ⟨k1, v1⟩ := hd
    simp only [List.map_cons, List.mem_cons] at h
    push_neg at h
    have h1 : ¬k1 = k := fun hh => h.1 hh.symm
    simp only [findA, if_neg h1]
    exact ih h.2

theorem findA_mem {κ α : Type} [DecidableEq κ] {l : List (κ × α)} {k : κ} {v : α}
    (h : findA l k = some v) : (k, v) ∈ l := by
  induction l with
  | nil => simp [findA] at h
  | cons hd t ih =>
    obtain ⟨k1, v1⟩ := hd
    by_cases hk : k1 = k
    · subst hk
      have h2 : v1 = v := by simpa [findA] using h
      subst h2
      exact List.mem_cons_self _ _
    · simp only [findA, if_neg hk] at h
      exact List.mem_cons_of_mem _ (ih h)

theorem ensureA_of_found {κ α : Type} [DecidableEq κ] {l : List (κ × α)} {k : κ} {v : α}
    (d : α) (h : findA l k = some v) : ensureA l k d = l := by
  unfold ensureA
  rw [h]

theorem findA_eraseA_self {κ α : Type} [DecidableEq κ] (l : List (κ × α)) (k : κ)
    (h : nodupKeys l) : findA (eraseA l k) k = none := by
  induction l with
  | nil => rfl
  | cons hd t ih =>
    obtain ⟨k1, v1⟩ := hd
    have h1 : k1 ∉ t.map Prod.fst ∧ (t.map Prod.fst).Nodup := by
      simpa [nodupKeys] using h
    by_cases hk : k1 = k
    · subst hk
      simp only [eraseA, if_pos rfl]
      exact findA_notin t k1 h1.1
    · simp only [eraseA, if_neg hk, findA, if_neg hk]
      exact ih h1.2

/-! ### Unfolding lemmas for the context resolver -/

theorem gaa_local {m : input_manager} {action_id context : String} {attrs : action_attributes}
    (h : local_find m action_id context = some attrs) :
    get_action_attributes m action_id context = (attrs, true, m) := by
  unfold get_action_attributes
  rw [h]

theorem gaa_default_found {m : input_manager} {action_id context : String}
    {dacts : t_actions} {attrs : action_attributes}
    (h : local_find m action_id context = none)
    (hd : findA m.action_contexts default_context_id = some dacts)
    (h2 : findA dacts action_id = some attrs) :
    get_action_attributes m action_id context = (attrs, false, m) := by
  unfold get_action_attributes
  rw [h]
  simp only [ensureA_of_found _ hd, hd, Option.getD_some, h2]

theorem gaa_materialize {m : input_manager} {action_id context : String}
    (h : local_find m action_id context = none)
    (hd : findA ((findA m.action_contexts default_context_id).getD []) action_id = none) :
    get_action_attributes m action_id context =
      (⟨get_default_action_name m action_id, [], false⟩, false,
       { m with action_contexts := (setA
          (ensureA m.action_contexts default_context_id [])
          default_context_id
          (setA ((findA m.action_contexts default_context_id).getD []) action_id
            ⟨get_default_action_name m action_id, [], false⟩)) }) := by
  unfold get_action_attributes
  rw [h]
  simp only [hd]

theorem local_find_of_absent (m : input_manager) (action_id context : String)
    (hno : absent_everywhere m action_id) :
    local_find m action_id context = none := by
  unfold local_find
  split
  · rfl
  · cases hc : findA m.action_contexts context with
    | none => rfl
    | some acts => simp [hno _ (findA_mem hc)]

theorem gdan_of_absent (m : input_manager) (action_id : String)
    (hno : absent_everywhere m action_id) :
    get_default_action_name m action_id = action_id := by
  unfold get_default_action_name
  cases hdc : findA m.action_contexts default_context_id with
  | none => rfl
  | some acts => simp [hno _ (findA_mem hdc)]

theorem mem_save_ids {m : input_manager} {cn action_id : String}
    {acts : t_actions} {attrs : action_attributes}
    (h1 : findA m.action_contexts cn = some acts)
    (h2 : findA acts action_id = some attrs) :
    (cn, action_id) ∈ save_ids m := by
  unfold save_ids
  refine List.mem_flatMap.mpr ⟨(cn, acts), findA_mem h1, ?_⟩
  exact List.mem_map.mpr ⟨(action_id, attrs), findA_mem h2, rfl⟩

/-! ### C1: context-local resolution with global fallback -/

/-- C1: for a context `c` distinct from `"default"`: if `c` exists in the
binding table and contains an entry for the action id, resolution returns
that entry with `is_local = true` (and does not change the table); otherwise
it returns the entry for the action id in the `"default"` context of the
resulting table and reports `is_local = false`. -/
theorem C1_context_resolution (m : input_manager) (action_id c : String)
    (h : c ≠ default_context_id) :
    (∀ acts attrs, findA m.action_contexts c = some acts →
        findA acts action_id = some attrs →
        get_action_attributes m action_id c = (attrs, true, m))
    ∧ ((findA m.action_contexts c).bind (fun acts => findA acts action_id) = none →
        (get_action_attributes m action_id c).2.1 = false
        ∧ findA ((findA (get_action_attributes m action_id c).2.2.action_contexts
              default_context_id).getD []) action_id
            = some (get_action_attributes m action_id c).1) := by
  constructor
  · intro acts attrs h1 h2
    apply gaa_local
    unfold local_find
    rw [if_neg h, h1]
    simpa using h2
  · intro hnone
    have hl : local_find m action_id c = none := by
      unfold local_find
      rw [if_neg h]
      exact hnone
    cases hfd : findA ((findA m.action_contexts default_context_id).getD []) action_id with
    | some attrs =>
      cases hdc : findA m.action_contexts default_context_id with
      | none => rw [hdc] at hfd; simp [findA] at hfd
      | some dacts =>
        rw [hdc] at hfd
        simp only [Option.getD_some] at hfd
        rw [gaa_default_found hl hdc hfd]
        simp [hdc, hfd]
    | none =>
      rw [gaa_materialize hl hfd]
      simp [findA_setA_self]

theorem C1_context_resolution_witness :
    get_action_attributes vehicle_manager "UP" "vehicle"
      = (up_vehicle_attrs, true, vehicle_manager)
    ∧ (get_action_attributes vehicle_manager "DOWN" "vehicle").2.1 = false := by
  have h1 := C1_context_resolution vehicle_manager "UP" "vehicle" (by decide)
  have h2 := C1_context_resolution vehicle_manager "DOWN" "vehicle" (by decide)
  exact ⟨h1.1 [("UP", up_vehicle_attrs)] up_vehicle_attrs rfl rfl,
         (h2.2 rfl).1⟩

/-! ### C2: materialisation on first resolution -/

/-- C2 counterexample: the claim asserts the auto-created entry carries a
non-empty synthesized display name, but resolving the (entry-less) empty
action id materialises a global entry whose display name is the empty
string (`no_translation( action_id )` of the empty id). -/
theorem C2_counterexample :
    findA ((findA (get_action_attributes empty_manager "" default_context_id).2.2.action_contexts
        default_context_id).getD []) ""
      = some ⟨"", [], false⟩ := by decide

/-- C2 (amended: the synthesized display name is non-empty whenever the
action id itself is non-empty): resolving an action id with no entry in any
context materialises a global entry with an empty event list and the
synthesized name, the entry appears in the table enumerated by save, and a
second resolution returns the same entry without further table change. -/
theorem C2_materialization (m : input_manager) (action_id c : String)
    (hno : absent_everywhere m action_id) :
    ((get_action_attributes m action_id c).1.input_events = []
      ∧ (action_id ≠ "" → (get_action_attributes m action_id c).1.name ≠ ""))
    ∧ findA ((findA (get_action_attributes m action_id c).2.2.action_contexts
          default_context_id).getD []) action_id
        = some (get_action_attributes m action_id c).1
    ∧ (default_context_id, action_id) ∈ save_ids (get_action_attributes m action_id c).2.2
    ∧ get_action_attributes (get_action_attributes m action_id c).2.2 action_id c
        = ((get_action_attributes m action_id c).1, false,
           (get_action_attributes m action_id c).2.2) := by
  have hl : local_find m action_id c = none := local_find_of_absent m action_id c hno
  have hfd : findA ((findA m.action_contexts default_context_id).getD []) action_id = none := by
    cases hdc : findA m.action_contexts default_context_id with
    | none => rfl
    | some dacts => simpa using hno _ (findA_mem hdc)
  have hg := gaa_materialize hl hfd
  rw [hg]
  set dacts := (findA m.action_contexts default_context_id).getD [] with hdacts
  set nattrs : action_attributes := ⟨get_default_action_name m action_id, [], false⟩ with hnattrs
  set m2 : input_manager :=
    { m with action_contexts := (setA
        (ensureA m.action_contexts default_context_id [])
        default_context_id (setA dacts action_id nattrs)) } with hm2
  have f1 : findA m2.action_contexts default_context_id = some (setA dacts action_id nattrs) :=
    findA_setA_self _ _ _
  have f2 : findA (setA dacts action_id nattrs) action_id = some nattrs :=
    findA_setA_self _ _ _
  refine ⟨⟨rfl, ?_⟩, ?_, ?_, ?_⟩
  · intro hne
    simpa [hnattrs, gdan_of_absent m action_id hno] using hne
  · simp only [f1, Option.getD_some, f2]
  · exact mem_save_ids f1 f2
  · have f3 : local_find m2 action_id c = none := by
      unfold local_find
      split
      · rfl
      · next hc =>
        have : findA m2.action_contexts c = findA m.action_contexts c := by
          rw [hm2]
          show findA (setA (ensureA m.action_contexts default_context_id []) default_context_id
            (setA dacts action_id nattrs)) c = findA m.action_contexts c
          rw [findA_setA_ne _ _ _ _ hc, findA_ensureA_ne _ _ _ _ hc]
        rw [this]
        cases hc2 : findA m.action_contexts c with
        | none => rfl
        | some acts => simp [hno _ (findA_mem hc2)]
    exact gaa_default_found f3 f1 f2

/-! ### Stability: the table side effect of a read never changes resolutions -/

theorem gaa_default_found2 {m : input_manager} {action_id context : String}
    {attrs : action_attributes}
    (h : local_find m action_id context = none)
    (h2 : findA ((findA m.action_contexts default_context_id).getD []) action_id = some attrs) :
    (get_action_attributes m action_id context).1 = attrs
    ∧ (get_action_attributes m action_id context).2.1 = false := by
  cases hdc : findA m.action_contexts default_context_id with
  | none => rw [hdc] at h2; simp [findA] at h2
  | some dacts =>
    rw [hdc] at h2
    simp only [Option.getD_some] at h2
    rw [gaa_default_found h hdc h2]
    exact ⟨rfl, rfl⟩

theorem gdan_of_find_none {m : input_manager} {action_id : String}
    (h : findA ((findA m.action_contexts default_context_id).getD []) action_id = none) :
    get_default_action_name m action_id = action_id := by
  unfold get_default_action_name
  cases hdc : findA m.action_contexts default_context_id with
  | none => rfl
  | some acts =>
    rw [hdc] at h
    simp only [Option.getD_some] at h
    simp [h]

theorem same_resolution_refl (m : input_manager) : same_resolution m m :=
  fun _ _ => ⟨rfl, rfl⟩

theorem same_resolution_trans {m1 m2 m3 : input_manager}
    (h1 : same_resolution m1 m2) (h2 : same_resolution m2 m3) :
    same_resolution m1 m3 :=
  fun a c => ⟨((h2 a c).1).trans ((h1 a c).1), ((h2 a c).2).trans ((h1 a c).2)⟩

/-- The state returned by `get_action_attributes` resolves every query
exactly as the state it was called on: materialised entries are empty and
named after the id that the resolver would synthesize anyway. -/
theorem gaa_state_same_resolution (m : input_manager) (a c : String) :
    same_resolution m (get_action_attributes m a c).2.2 := by
  cases hl : local_find m a c with
  | some attrs =>
    rw [gaa_local hl]
    exact same_resolution_refl m
  | none =>
    cases hfd : findA ((findA m.action_contexts default_context_id).getD []) a with
    | some attrs =>
      cases hdc : findA m.action_contexts default_context_id with
      | none => rw [hdc] at hfd; simp [findA] at hfd
      | some dacts =>
        rw [hdc] at hfd
        simp only [Option.getD_some] at hfd
        rw [gaa_default_found hl hdc hfd]
        exact same_resolution_refl m
    | none =>
      rw [gaa_materialize hl hfd]
      set dacts := (findA m.action_contexts default_context_id).getD [] with hdacts
      set nattrs : action_attributes := ⟨get_default_action_name m a, [], false⟩ with hnattrs
      set m2 : input_manager :=
        { m with action_contexts := (setA
            (ensureA m.action_contexts default_context_id [])
            default_context_id (setA dacts a nattrs)) } with hm2
      intro action_id ctx
      have f1 : findA m2.action_contexts default_context_id = some (setA dacts a nattrs) :=
        findA_setA_self _ _ _
      have hlf : local_find m2 action_id ctx = local_find m action_id ctx := by
        unfold local_find
        split
        · rfl
        · next hctx =>
          have heq : findA m2.action_contexts ctx = findA m.action_contexts ctx := by
            show findA (setA (ensureA m.action_contexts default_context_id [])
              default_context_id (setA dacts a nattrs)) ctx = findA m.action_contexts ctx
            rw [findA_setA_ne _ _ _ _ hctx, findA_ensureA_ne _ _ _ _ hctx]
          rw [heq]
      cases hl2 : local_find m action_id ctx with
      | some attrs =>
        rw [gaa_local (hlf.trans hl2), gaa_local hl2]
        exact ⟨rfl, rfl⟩
      | none =>
        by_cases ha : action_id = a
        · subst ha
          have h2 : findA ((findA m2.action_contexts default_context_id).getD []) action_id
              = some nattrs := by
            rw [f1]
            simpa using findA_setA_self dacts action_id nattrs
          have r2 := gaa_default_found2 (hlf.trans hl2) h2
          rw [gaa_materialize hl2 hfd]
          exact ⟨r2.1, r2.2⟩
        · have hsetne : findA (setA dacts a nattrs) action_id = findA dacts action_id :=
            findA_setA_ne _ _ _ _ ha
          cases hda : findA dacts action_id with
          | some attrs =>
            have h2 : findA ((findA m2.action_contexts default_context_id).getD []) action_id
                = some attrs := by
              rw [f1]
              simpa [hsetne] using hda
            have r2 := gaa_default_found2 (hlf.trans hl2) h2
            have r1 := gaa_default_found2 hl2 (hdacts ▸ hda)
            exact ⟨r2.1.trans r1.1.symm, r2.2.trans r1.2.symm⟩
          | none =>
            have h2 : findA ((findA m2.action_contexts default_context_id).getD []) action_id
                = none := by
              rw [f1]
              simpa [hsetne] using hda
            rw [gaa_materialize (hlf.trans hl2) h2, gaa_materialize hl2 (hdacts ▸ hda)]
            refine ⟨?_, rfl⟩
            simp only
            rw [gdan_of_find_none h2, gdan_of_find_none (hdacts ▸ hda)]

theorem lookup_spec_congr {m m2 : input_manager} (category : String) (inp : input_event)
    (h : same_resolution m m2) :
    ∀ l : List String, lookup_spec m2 category inp l = lookup_spec m category inp l := by
  intro l
  induction l with
  | nil => rfl
  | cons a rest ih =>
    unfold lookup_spec
    rw [ih]
    have hev : resolved_events m2 a category = resolved_events m a category := by
      unfold resolved_events
      rw [(h a category).1]
    rw [hev]

theorem input_to_action_go_spec (category : String) (inp : input_event) :
    ∀ (l : List String) (m : input_manager),
      (input_to_action_go category inp m l).1 = lookup_spec m category inp l := by
  intro l
  induction l with
  | nil => intro m; rfl
  | cons a rest ih =>
    intro m
    unfold input_to_action_go lookup_spec
    by_cases hin : inp ∈ (get_action_attributes m a category).1.input_events
    · simp only [resolved_events, if_pos hin]
    · simp only [resolved_events, if_neg hin]
      rw [ih]
      exact lookup_spec_congr category inp (gaa_state_same_resolution m a category) rest

/-! ### C3: lookup scans registered actions in order -/

/-- C3: `input_to_action` returns the first registered action (in
registration order) whose resolved bindings in the session's context contain
an event equal to the probe, and the `CATA_ERROR` sentinel when none does
(this is exactly `lookup_spec`, written from the claim's words); in
particular two actions registered in order `["FOO", "BAR"]` both bound to
the probe resolve to `"FOO"`. -/
theorem C3_lookup_first_match :
    (∀ (m : input_manager) (ctx : input_context) (inp : input_event),
      (input_to_action m ctx inp).1 = lookup_spec m ctx.category inp ctx.registered_actions)
    ∧ (input_to_action foobar_manager foobar_session probe_event).1 = "FOO" := by
  constructor
  · intro m ctx inp
    exact input_to_action_go_spec ctx.category inp ctx.registered_actions m
  · decide

/-! ### C7: remove semantics and fall-through -/

theorem setA_found_self {κ α : Type} [DecidableEq κ] {l : List (κ × α)} {k : κ} {v : α}
    (h : findA l k = some v) : setA l k v = l := by
  induction l with
  | nil => simp [findA] at h
  | cons hd t ih =>
    obtain ⟨k1, v1⟩ := hd
    by_cases hk : k1 = k
    · subst hk
      have hv : v1 = v := by simpa [findA] using h
      subst hv
      simp [setA]
    · simp only [findA, if_neg hk] at h
      simp [setA, hk, ih h]

theorem gaa_snd_false {m : input_manager} {action_id context : String}
    (h : local_find m action_id context = none) :
    (get_action_attributes m action_id context).2.1 = false := by
  cases hfd : findA ((findA m.action_contexts default_context_id).getD []) action_id with
  | some attrs => exact (gaa_default_found2 h hfd).2
  | none => rw [gaa_materialize h hfd]

/-- C7: `remove_input_for_action` deletes the whole entry when it is marked
user-created; otherwise it deletes the entry when its event list is already
empty and clears the event list (leaving the entry present with zero events)
when it is non-empty; after deleting a user-created local entry, resolving
that action id in that context falls through to the global binding
(`is_local = false`). -/
theorem C7_remove_semantics (m : input_manager) (action_id c : String)
    (acts : t_actions) (attrs : action_attributes)
    (hc : findA m.action_contexts c = some acts)
    (ha : findA acts action_id = some attrs) :
    (attrs.is_user_created = true →
      (remove_input_for_action m action_id c).action_contexts
        = setA m.action_contexts c (eraseA acts action_id))
    ∧ (attrs.is_user_created = false → attrs.input_events = [] →
      (remove_input_for_action m action_id c).action_contexts
        = setA m.action_contexts c (eraseA acts action_id))
    ∧ (attrs.is_user_created = false → attrs.input_events ≠ [] →
      findA ((findA (remove_input_for_action m action_id c).action_contexts c).getD [])
          action_id = some { attrs with input_events := [] })
    ∧ (attrs.is_user_created = true → c ≠ default_context_id → nodupKeys acts →
      (get_action_attributes (remove_input_for_action m action_id c) action_id c).2.1
        = false) := by
  have hro : ∀ (huc : attrs.is_user_created = true),
      (remove_input_for_action m action_id c).action_contexts
        = setA m.action_contexts c (eraseA acts action_id) := by
    intro huc
    simp only [remove_input_for_action, hc, ha, huc, if_true]
  refine ⟨hro, ?_, ?_, ?_⟩
  · intro huc hempty
    simp only [remove_input_for_action, hc, ha, huc, hempty]
    simp
  · intro huc hne
    simp only [remove_input_for_action, hc, ha, huc, Bool.false_eq_true, if_false, if_neg hne]
    rw [findA_setA_self]
    simp only [Option.getD_some]
    exact findA_setA_self _ _ _
  · intro huc hcd hnd
    apply gaa_snd_false
    unfold local_find
    rw [if_neg hcd, hro huc, findA_setA_self]
    simp [findA_eraseA_self acts action_id hnd]

theorem C7_remove_semantics_witness :
    (remove_input_for_action vehicle_manager "UP" "vehicle").action_contexts
      = setA vehicle_manager.action_contexts "vehicle" (eraseA [("UP", up_vehicle_attrs)] "UP")
    ∧ (get_action_attributes (remove_input_for_action vehicle_manager "UP" "vehicle")
        "UP" "vehicle").2.1 = false := by
  have h := C7_remove_semantics vehicle_manager "UP" "vehicle"
      [("UP", up_vehicle_attrs)] up_vehicle_attrs (by decide) (by decide)
  exact ⟨h.1 rfl, h.2.2.2 rfl (by decide) (by decide)⟩

/-! ### C10: which operations mark entries user-created -/

theorem gdan_of_find_some {m : input_manager} {action_id : String}
    {dattrs : action_attributes}
    (h : findA ((findA m.action_contexts default_context_id).getD []) action_id
        = some dattrs) :
    get_default_action_name m action_id = dattrs.name := by
  unfold get_default_action_name
  cases hdc : findA m.action_contexts default_context_id with
  | none => rw [hdc] at h; simp [findA] at h
  | some acts =>
    rw [hdc] at h
    simp only [Option.getD_some] at h
    simp [h]

theorem gdan_congr {m m2 : input_manager} (action_id : String)
    (h : findA m2.action_contexts default_context_id
      = findA m.action_contexts default_context_id) :
    get_default_action_name m2 action_id = get_default_action_name m action_id := by
  unfold get_default_action_name
  rw [h]

/-- C10: an entry created through the editing protocol's add operation (an
(action id, context) pair with no entry in that context before the add) is
created with `is_user_created = true` and, whenever a global default entry
for that action id exists, with its display name copied from that entry; an
entry materialised by resolution-on-read is not marked user-created, and
applying a load record that carries no `is_user_created` member never
changes the flag (a fresh entry gets `false`). -/
theorem C10_user_created_invariants (m : input_manager) (action_id c : String) :
    (∀ event, findA ((findA m.action_contexts c).getD []) action_id = none →
      ∃ attrs,
        findA ((findA (add_input_for_action m action_id c event).action_contexts c).getD [])
            action_id = some attrs
        ∧ attrs.is_user_created = true
        ∧ (∀ dattrs,
            findA ((findA m.action_contexts default_context_id).getD []) action_id
              = some dattrs → attrs.name = dattrs.name))
    ∧ (local_find m action_id c = none →
        findA ((findA m.action_contexts default_context_id).getD []) action_id = none →
        (get_action_attributes m action_id c).1.is_user_created = false)
    ∧ (∀ (is_user : Bool) (r : binding_record), r.is_user_created = none →
        ∀ attrs,
          findA ((findA (apply_record m is_user r).action_contexts r.context).getD [])
              r.id = some attrs →
          attrs.is_user_created
            = ((findA ((findA m.action_contexts r.context).getD []) r.id).map
                action_attributes.is_user_created).getD false) := by
  refine ⟨?_, ?_, ?_⟩
  · intro event hnone
    have hcreate : get_or_create_event_list m action_id c
        = ([], goce_created m action_id c) := by
      simp only [get_or_create_event_list, hnone]
    refine ⟨⟨(goce_created_attrs m action_id c).name, [event], true⟩, ?_, rfl, ?_⟩
    · simp [add_input_for_action, hcreate, findA_setA_self, goce_created,
        goce_created_attrs]
    · intro dattrs hd
      show (goce_created_attrs m action_id c).name = dattrs.name
      unfold goce_created_attrs
      by_cases hc : c = default_context_id
      · subst hc
        rw [hnone] at hd
        cases hd
      · have heq : findA (goce_inserted m action_id c).action_contexts default_context_id
            = findA m.action_contexts default_context_id := by
          show findA (setA (ensureA m.action_contexts c []) c
              (setA ((findA m.action_contexts c).getD []) action_id default_attributes))
              default_context_id = findA m.action_contexts default_context_id
          rw [findA_setA_ne _ _ _ _ (fun hh => hc hh.symm),
            findA_ensureA_ne _ _ _ _ (fun hh => hc hh.symm)]
        rw [gdan_congr action_id heq]
        exact gdan_of_find_some hd
  · intro hl hfd
    rw [gaa_materialize hl hfd]
  · intro is_user r hnone attrs hfind
    have hbase : ∀ o : Option action_attributes,
        (o.getD default_attributes).is_user_created
          = (o.map action_attributes.is_user_created).getD false := by
      intro o
      cases o <;> rfl
    have hflag : ((findA (load_acts1 m is_user r) r.id).getD default_attributes).is_user_created
        = ((findA ((findA m.action_contexts r.context).getD []) r.id).map
            action_attributes.is_user_created).getD false := by
      unfold load_acts1
      split
      · rw [findA_setA_self]
        simp only [Option.getD_some, with_name]
        exact hbase _
      · exact hbase _
    cases happ : load_applies m is_user r with
    | true =>
      simp only [apply_record, happ, if_true] at hfind
      rw [findA_setA_self] at hfind
      simp only [Option.getD_some] at hfind
      rw [findA_setA_self] at hfind
      cases hfind
      simp only [load_final_attrs, hnone, Option.getD_none]
      exact hflag
    | false =>
      simp only [apply_record, happ, Bool.false_eq_true, if_false] at hfind
      rw [findA_setA_self] at hfind
      simp only [Option.getD_some] at hfind
      have hsome : (findA (load_acts1 m is_user r) r.id).isSome = false := by
        have := happ
        unfold load_applies at this
        simp only [Bool.or_eq_false_iff] at this
        exact this.2
      rw [hfind] at hsome
      simp at hsome

theorem C10_user_created_invariants_witness :
    (∃ attrs,
      findA ((findA (add_input_for_action vehicle_manager "JUMP" "vehicle"
          probe_event).action_contexts "vehicle").getD []) "JUMP" = some attrs
      ∧ attrs.is_user_created = true)
    ∧ (get_action_attributes vehicle_manager "JUMP" "vehicle").1.is_user_created = false := by
  have h := C10_user_created_invariants vehicle_manager "JUMP" "vehicle"
  obtain ⟨attrs, h1, h2, _⟩ := h.1 probe_event (by decide)
  exact ⟨⟨attrs, h1, h2⟩, h.2.1 (by decide) (by decide)⟩

/-! ### C4 and C5: load-time suppression and the version-0 merge -/

theorem load_acts1_user (m : input_manager) (r : binding_record) :
    load_acts1 m true r = (findA m.action_contexts r.context).getD [] := rfl

theorem load_acts1_isSome {m : input_manager} {is_user : Bool} {r : binding_record}
    (h : (findA ((findA m.action_contexts r.context).getD []) r.id).isSome = true) :
    (findA (load_acts1 m is_user r) r.id).isSome = true := by
  unfold load_acts1
  split
  · rw [findA_setA_self]
    rfl
  · exact h

theorem record_events_load_acts1 (m : input_manager) (is_user : Bool) (r : binding_record) :
    record_events is_user r ((findA (load_acts1 m is_user r) r.id).getD default_attributes)
      = record_events is_user r
          ((findA ((findA m.action_contexts r.context).getD []) r.id).getD
            default_attributes) := by
  unfold load_acts1
  split
  · simp [record_events]
  · rfl

/-- An applied record (non-user, or non-empty events, or default context, or
pre-existing entry) installs `record_events` over the pre-existing
attributes as the entry's event list. -/
theorem load_applied_entry (m : input_manager) (is_user : Bool) (r : binding_record)
    (hyp : is_user = false ∨ r.events ≠ [] ∨ r.context = default_context_id
      ∨ (findA ((findA m.action_contexts r.context).getD []) r.id).isSome = true) :
    ∃ attrs,
      findA ((findA (apply_record m is_user r).action_contexts r.context).getD [])
          r.id = some attrs
      ∧ attrs.input_events = record_events is_user r
          ((findA ((findA m.action_contexts r.context).getD []) r.id).getD
            default_attributes) := by
  have happ : load_applies m is_user r = true := by
    unfold load_applies
    rcases hyp with h1 | h2 | h3 | h4
    · simp [h1]
    · have : r.events.isEmpty = false := by
        cases hev : r.events with
        | nil => exact absurd hev h2
        | cons e t => rfl
      simp [this]
    · simp [h3]
    · simp [load_acts1_isSome h4]
  refine ⟨load_final_attrs m is_user r, ?_, ?_⟩
  · simp only [apply_record, happ, if_true]
    rw [findA_setA_self]
    simp only [Option.getD_some]
    exact findA_setA_self _ _ _
  · show record_events is_user r
        ((findA (load_acts1 m is_user r) r.id).getD default_attributes) = _
    exact record_events_load_acts1 m is_user r

/-- C4 counterexample: the claim says a discarded user-preference record
leaves the binding table unchanged, but the bare `operator[]` on the table
(line 239) materialises the record's context before the suppression check,
so a discarded record for a previously unknown context still inserts an
empty context shell. -/
theorem C4_counterexample :
    apply_record empty_manager true stale_record ≠ empty_manager := by decide

/-- C4 (amended: a discarded record changes no context's action entries,
though it may insert an empty context shell for the record's context): a
user-preference record with an empty resolved event list for a non-default
context with no pre-existing entry for its action id is discarded — every
action-entry lookup is unchanged; any other record (from a non-user file,
or with non-empty events, or for the default context, or with a
pre-existing entry) is applied: afterwards the entry exists and its event
list is the record's resolved list after the version-0 merge against the
pre-existing attributes. -/
theorem C4_empty_suppression (m : input_manager) (is_user : Bool) (r : binding_record) :
    (is_user = true → r.events = [] → r.context ≠ default_context_id →
      findA ((findA m.action_contexts r.context).getD []) r.id = none →
      ∀ cn aid, findA ((findA (apply_record m is_user r).action_contexts cn).getD []) aid
        = findA ((findA m.action_contexts cn).getD []) aid)
    ∧ ((is_user = false ∨ r.events ≠ [] ∨ r.context = default_context_id
        ∨ (findA ((findA m.action_contexts r.context).getD []) r.id).isSome = true) →
      ∃ attrs,
        findA ((findA (apply_record m is_user r).action_contexts r.context).getD [])
            r.id = some attrs
        ∧ attrs.input_events = record_events is_user r
            ((findA ((findA m.action_contexts r.context).getD []) r.id).getD
              default_attributes)) := by
  constructor
  · intro h1 h2 h3 h4 cn aid
    subst h1
    have hacts1 : load_acts1 m true r = (findA m.action_contexts r.context).getD [] := rfl
    have happ : load_applies m true r = false := by
      unfold load_applies
      rw [hacts1, h4]
      have hbeq : (r.context == default_context_id) = false := by
        simpa using h3
      simp [h2, hbeq]
    simp only [apply_record, happ, Bool.false_eq_true, if_false]
    by_cases hcn : cn = r.context
    · subst hcn
      rw [findA_setA_self, hacts1]
      simp only [Option.getD_some]
    · rw [findA_setA_ne _ _ _ _ hcn, findA_ensureA_ne _ _ _ _ hcn]
  · exact load_applied_entry m is_user r

theorem C4_empty_suppression_witness :
    findA ((findA (apply_record empty_manager true stale_record).action_contexts
        "foo").getD []) "X" = none
    ∧ (∃ attrs,
        findA ((findA (apply_record empty_manager false up_shipped_record).action_contexts
            default_context_id).getD []) "UP" = some attrs
        ∧ attrs.input_events = [probe_event]) := by
  have h1 := (C4_empty_suppression empty_manager true stale_record).1
      rfl rfl (by decide) (by decide) "foo" "X"
  have h2 := (C4_empty_suppression empty_manager false up_shipped_record).2 (Or.inl rfl)
  obtain ⟨attrs, ha, hev⟩ := h2
  refine ⟨by rw [h1]; rfl, ⟨attrs, ha, ?_⟩⟩
  rw [hev]
  decide

/-- C5: applying a user-preference record at schema version 0 appends every
raw-keyboard-code event already present in the pre-existing attributes for
that action id in the record's context to the record's event list, and that
merged list replaces the old one. -/
theorem C5_version0_merge (m : input_manager) (r : binding_record)
    (h0 : r.version = 0) (prior : action_attributes)
    (hp : findA ((findA m.action_contexts r.context).getD []) r.id = some prior) :
    ∃ attrs,
      findA ((findA (apply_record m true r).action_contexts r.context).getD [])
          r.id = some attrs
      ∧ attrs.input_events
          = r.events ++ prior.input_events.filter fun e =>
              e.type = input_event_t.keyboard_code := by
  obtain ⟨attrs, ha, hev⟩ := load_applied_entry m true r
    (Or.inr (Or.inr (Or.inr (by rw [hp]; rfl))))
  refine ⟨attrs, ha, ?_⟩
  rw [hev, hp]
  simp [record_events, h0]

theorem C5_version0_merge_witness :
    ∃ attrs,
      findA ((findA (apply_record quit_manager true quit_record).action_contexts
          default_context_id).getD []) "QUIT" = some attrs
      ∧ attrs.input_events = [quit_char_event, quit_code_event] := by
  obtain ⟨attrs, h1, h2⟩ := C5_version0_merge quit_manager quit_record rfl
    quit_default_attrs (by decide)
  refine ⟨attrs, h1, ?_⟩
  rw [h2]
  decide

theorem C2_materialization_witness :
    (get_action_attributes vehicle_manager "RUN" "vehicle").1.input_events = []
    ∧ (get_action_attributes vehicle_manager "RUN" "vehicle").1.name ≠ "" := by
  have h := C2_materialization vehicle_manager "RUN" "vehicle" (by decide)
  exact ⟨h.1.1, h.1.2 (by decide)⟩

/-! ### C9: the timeout frame property of handle_input -/

theorem gaa_timeout (m : input_manager) (a c : String) :
    (get_action_attributes m a c).2.2.input_timeout = m.input_timeout := by
  cases hl : local_find m a c with
  | some attrs => rw [gaa_local hl]
  | none =>
    cases hfd : findA ((findA m.action_contexts default_context_id).getD []) a with
    | some attrs =>
      cases hdc : findA m.action_contexts default_context_id with
      | none => rw [hdc] at hfd; simp [findA] at hfd
      | some dacts =>
        rw [hdc] at hfd
        simp only [Option.getD_some] at hfd
        rw [gaa_default_found hl hdc hfd]
    | none => rw [gaa_materialize hl hfd]

theorem input_to_action_go_timeout (category : String) (inp : input_event) :
    ∀ (l : List String) (m : input_manager),
      (input_to_action_go category inp m l).2.input_timeout = m.input_timeout := by
  intro l
  induction l with
  | nil => intro m; rfl
  | cons a rest ih =>
    intro m
    unfold input_to_action_go
    by_cases hin : inp ∈ (get_action_attributes m a category).1.input_events
    · simp only [if_pos hin]
      exact gaa_timeout m a category
    · simp only [if_neg hin]
      rw [ih]
      exact gaa_timeout m a category

theorem input_to_action_timeout (m : input_manager) (ctx : input_context)
    (e : input_event) :
    (input_to_action m ctx e).2.input_timeout = m.input_timeout :=
  input_to_action_go_timeout ctx.category e ctx.registered_actions m

theorem handle_input_go_waits (menu : input_manager → input_manager) (ctx : input_context)
    (t : Int) :
    ∀ (stream : List input_event) (m : input_manager) (waits : List Int)
      (a : String) (m2 : input_manager) (waits2 : List Int),
      handle_input_go menu ctx t m stream waits = some (a, m2, waits2) →
      ∀ w ∈ waits2, w ∈ waits ∨ w = m.input_timeout := by
  intro stream
  induction stream with
  | nil =>
    intro m waits a m2 waits2 h
    exact absurd h (by simp [handle_input_go])
  | cons e rest ih =>
    intro m waits a m2 waits2 h w hw
    have hstep : w ∈ waits ++ [m.input_timeout] ∨ w = m.input_timeout →
        w ∈ waits ∨ w = m.input_timeout := by
      intro hww
      rcases hww with hww | hww
      · rcases List.mem_append.mp hww with h1 | h1
        · exact Or.inl h1
        · right
          simpa using h1
      · exact Or.inr hww
    simp only [handle_input_go] at h
    split at h
    · cases h
      exact hstep (Or.inl hw)
    · split at h
      · cases h
        exact hstep (Or.inl hw)
      · split at h
        · refine hstep ?_
          have := ih (input_to_action m ctx e).2 (waits ++ [m.input_timeout])
            a m2 waits2 h w hw
          rcases this with h1 | h1
          · exact Or.inl h1
          · right
            rw [h1]
            exact input_to_action_timeout m ctx e
        · split at h
          · cases h
            exact hstep (Or.inl hw)
          · split at h
            · cases h
              exact hstep (Or.inl hw)
            · refine hstep ?_
              have := ih (input_to_action m ctx e).2 (waits ++ [m.input_timeout])
                a m2 waits2 h w hw
              rcases this with h1 | h1
              · exact Or.inl h1
              · right
                rw [h1]
                exact input_to_action_timeout m ctx e

/-- C9: `handle_input` restores the manager's timeout on every return path —
the value after the call equals the value before it, whatever the timeout
argument and whatever the keybindings editor (`menu`, an arbitrary manager
transformation covering nested editing sessions) does on the
`HELP_KEYBINDINGS` path; and with a negative timeout argument the manager's
timeout is left unmodified during every wait of the loop. -/
theorem C9_timeout_restored (menu : input_manager → input_manager) (ctx : input_context)
    (t : Int) (m : input_manager) (stream : List input_event)
    (a : String) (m2 : input_manager) (waits : List Int)
    (h : handle_input menu ctx t m stream = some (a, m2, waits)) :
    m2.input_timeout = m.input_timeout
    ∧ (t < 0 → ∀ w ∈ waits, w = m.input_timeout) := by
  simp only [handle_input] at h
  cases hg : handle_input_go menu ctx t (if t ≥ 0 then set_timeout m t else m) stream []
    with
  | none => rw [hg] at h; cases h
  | some p =>
    obtain ⟨a1, m21, w1⟩ := p
    rw [hg] at h
    simp only [Option.some.injEq, Prod.mk.injEq] at h
    obtain ⟨ha, hm, hww⟩ := h
    constructor
    · rw [← hm]
      rfl
    · intro ht w hw
      rw [← hww] at hw
      have := handle_input_go_waits menu ctx t stream _ [] a1 m21 w1 hg w hw
      rcases this with h1 | h1
      · exact absurd h1 (by simp)
      · rw [h1, if_neg (by omega)]

theorem C9_timeout_restored_witness :
    ∃ p : String × input_manager × List Int,
      handle_input (fun mm => set_timeout mm 99) help_session (-5) help_manager
          [help_event] = some p
      ∧ p.2.1.input_timeout = help_manager.input_timeout
      ∧ ∀ w ∈ p.2.2, w = help_manager.input_timeout := by
  have h : handle_input (fun mm => set_timeout mm 99) help_session (-5) help_manager
      [help_event] = some (HELP_KEYBINDINGS, help_manager, [-1]) := by decide
  have h2 := C9_timeout_restored (fun mm => set_timeout mm 99) help_session (-5)
    help_manager [help_event] HELP_KEYBINDINGS help_manager [-1] h
  exact ⟨(HELP_KEYBINDINGS, help_manager, [-1]), h, h2.1, h2.2 (by norm_num)⟩

/-! ### C8: the conflict query -/

theorem action_name_of_congr {m m2 : input_manager} (ctx : input_context)
    (action_id : String) (h : same_resolution m m2) :
    action_name_of m2 ctx action_id = action_name_of m ctx action_id := by
  have e1 : (get_action_attributes m2 action_id ctx.category).1
      = (get_action_attributes m action_id ctx.category).1 := (h action_id ctx.category).1
  have e2 : (get_action_attributes (get_action_attributes m2 action_id ctx.category).2.2
        action_id default_context_id).1
      = (get_action_attributes (get_action_attributes m action_id ctx.category).2.2
        action_id default_context_id).1 := by
    rw [(gaa_state_same_resolution m2 action_id ctx.category action_id default_context_id).1,
      (gaa_state_same_resolution m action_id ctx.category action_id default_context_id).1,
      (h action_id default_context_id).1]
  unfold action_name_of get_action_name
  cases ho : findA ctx.action_name_overrides action_id with
  | some n => rfl
  | none =>
    by_cases h1 : (get_action_attributes m action_id ctx.category).1.name ≠ ""
    · simp [e1, h1]
    · by_cases h2 : (get_action_attributes (get_action_attributes m action_id
          ctx.category).2.2 action_id default_context_id).1.name ≠ ""
      · simp [e1, e2, h1, h2]
      · simp [e1, e2, h1, h2]

theorem get_action_name_state_reach (m : input_manager) (ctx : input_context)
    (action_id : String) :
    same_resolution m (get_action_name m ctx action_id).2 := by
  unfold get_action_name
  cases ho : findA ctx.action_name_overrides action_id with
  | some n => exact same_resolution_refl m
  | none =>
    have s1 : same_resolution m (get_action_attributes m action_id ctx.category).2.2 :=
      gaa_state_same_resolution m action_id ctx.category
    have s2 : same_resolution m
        (get_action_attributes (get_action_attributes m action_id ctx.category).2.2
          action_id default_context_id).2.2 :=
      same_resolution_trans s1 (gaa_state_same_resolution _ action_id default_context_id)
    by_cases h1 : (get_action_attributes m action_id ctx.category).1.name ≠ ""
    · simpa [h1] using s1
    · by_cases h2 : (get_action_attributes (get_action_attributes m action_id
          ctx.category).2.2 action_id default_context_id).1.name ≠ ""
      · simpa [h1, h2] using s2
      · simpa [h1, h2] using s2

theorem get_conflicts_go_spec (ctx : input_context) (event : input_event)
    {m : input_manager} :
    ∀ (l : List String) {m1 : input_manager}, same_resolution m m1 →
      (get_conflicts_go ctx event m1 l).1
        = l.map fun a =>
            if event ∈ resolved_events m a ctx.category then action_name_of m ctx a
            else "" := by
  intro l
  induction l with
  | nil =>
    intro m1 _
    rfl
  | cons a rest ih =>
    intro m1 h
    have hu : (action_uses_input m1 ctx a event).1
        = decide (event ∈ resolved_events m a ctx.category) := by
      unfold action_uses_input resolved_events
      simp only [(h a ctx.category).1]
    have hreach1 : same_resolution m (action_uses_input m1 ctx a event).2 :=
      same_resolution_trans h (gaa_state_same_resolution m1 a ctx.category)
    unfold get_conflicts_go
    simp only [List.map_cons]
    by_cases hin : event ∈ resolved_events m a ctx.category
    · have hu2 : (action_uses_input m1 ctx a event).1 = true := by
        rw [hu]
        simpa using hin
      simp only [hu2, if_true, if_pos hin]
      refine congrArg₂ List.cons ?_ ?_
      · exact action_name_of_congr ctx a hreach1
      · exact ih (same_resolution_trans hreach1
          (get_action_name_state_reach (action_uses_input m1 ctx a event).2 ctx a))
    · have hu2 : (action_uses_input m1 ctx a event).1 = false := by
        rw [hu]
        simpa using hin
      simp only [hu2, Bool.false_eq_true, if_false, if_neg hin]
      exact congrArg (List.cons "") (ih hreach1)

theorem enumerate_filter_map (m : input_manager) (ctx : input_context)
    (event : input_event) :
    ∀ l : List String, (∀ a ∈ l, action_name_of m ctx a ≠ "") →
      enumerate_nonempty (l.map fun a =>
          if event ∈ resolved_events m a ctx.category then action_name_of m ctx a else "")
        = (l.filter fun a => decide (event ∈ resolved_events m a ctx.category)).map
            fun a => action_name_of m ctx a := by
  intro l
  induction l with
  | nil =>
    intro _
    rfl
  | cons a rest ih =>
    intro hname
    have hrest := ih fun b hb => hname b (List.mem_cons_of_mem _ hb)
    unfold enumerate_nonempty at hrest ⊢
    by_cases hin : event ∈ resolved_events m a ctx.category
    · simp only [List.map_cons, if_pos hin, List.filter_cons, decide_eq_true hin, if_true]
      rw [if_pos (decide_eq_true (hname a (List.mem_cons_self a rest)))]
      rw [hrest]
    · have hd1 : decide (event ∈ resolved_events m a ctx.category) = false :=
        decide_eq_false hin
      have hd2 : ¬(decide (("" : String) ≠ "") = true) := by decide
      simp only [List.map_cons, if_neg hin, List.filter_cons, hd1, Bool.false_eq_true,
        if_false, if_neg hd2]
      exact hrest

/-- C8 counterexample: the conflict query does not exclude the action being
edited — `get_conflicts` takes no such parameter.  With `"FOO"` registered,
bound to the probe and being the action under edit, the claim predicts its
display name is absent from the result, yet the query returns it (the
editor merely never calls the query in that configuration, bailing out
earlier on `action_uses_input`). -/
theorem C8_counterexample :
    (get_conflicts foobar_manager foobar_session probe_event).1 = ["Foo", "Bar"] := by
  decide

/-- C8 (amended: the query itself excludes no action — the caller guarantees
the edited action does not use the event — and every registered action is
assumed to have a non-empty display name): the conflict query returns the
display names of exactly those registered actions whose resolved bindings in
the session's context contain an event equal to the probe, in registration
order. -/
theorem C8_conflicts_ordered (m : input_manager) (ctx : input_context)
    (event : input_event)
    (hname : ∀ a ∈ ctx.registered_actions, action_name_of m ctx a ≠ "") :
    (get_conflicts m ctx event).1
      = (ctx.registered_actions.filter fun a =>
          decide (event ∈ resolved_events m a ctx.category)).map
          fun a => action_name_of m ctx a := by
  simp only [get_conflicts]
  rw [get_conflicts_go_spec ctx event ctx.registered_actions (same_resolution_refl m)]
  exact enumerate_filter_map m ctx event ctx.registered_actions hname

theorem C8_conflicts_ordered_witness :
    (get_conflicts foobar_manager foobar_session bar_only_event).1 = ["Bar"] := by
  have h := C8_conflicts_ordered foobar_manager foobar_session bar_only_event (by decide)
  rw [h]
  decide

/-! ### C6: portable key names round-trip through the registry -/

theorem digitToNat_digitChar {d : Nat} (h : d < 10) :
    digitToNat (Nat.digitChar d) = d := by
  interval_cases d <;> decide

theorem digitChar_isDigit {d : Nat} (h : d < 10) : (Nat.digitChar d).isDigit = true := by
  interval_cases d <;> decide

theorem isDigit_not_sign {c : Char} (h : c.isDigit = true) : c ≠ '-' ∧ c ≠ '+' :=
  ⟨fun he => by subst he; exact absurd h (by decide),
   fun he => by subst he; exact absurd h (by decide)⟩

theorem digitsStr_digits : ∀ n : Nat, ∀ c ∈ digitsStr n, c.isDigit = true := by
  intro n
  induction n using Nat.strong_induction_on with
  | _ n ih =>
    rw [digitsStr]
    split
    · next h =>
      intro c hc
      rw [List.mem_singleton] at hc
      subst hc
      exact digitChar_isDigit h
    · next h =>
      intro c hc
      rcases List.mem_append.mp hc with hc | hc
      · exact ih (n / 10) (Nat.div_lt_self (by omega) (by omega)) c hc
      · rw [List.mem_singleton] at hc
        subst hc
        exact digitChar_isDigit (Nat.mod_lt _ (by omega))

theorem digitsStr_ne_nil (n : Nat) : digitsStr n ≠ [] := by
  rw [digitsStr]
  split
  · simp
  · simp

theorem parseDigits_append (l : List Char) (c : Char) :
    parseDigits (l ++ [c]) = parseDigits l * 10 + digitToNat c := by
  unfold parseDigits
  rw [List.foldl_append]
  rfl

theorem parseDigits_digitsStr : ∀ n : Nat, parseDigits (digitsStr n) = n := by
  intro n
  induction n using Nat.strong_induction_on with
  | _ n ih =>
    rw [digitsStr]
    split
    · next h =>
      show parseDigits [Nat.digitChar n] = n
      unfold parseDigits
      simp only [List.foldl_cons, List.foldl_nil]
      rw [digitToNat_digitChar h]
      omega
    · next h =>
      rw [parseDigits_append, ih (n / 10) (Nat.div_lt_self (by omega) (by omega)),
        digitToNat_digitChar (Nat.mod_lt _ (by omega))]
      omega

theorem natDigitsGo_eq : ∀ (fuel n : Nat) (acc : List Char), n ≤ fuel →
    natDigitsGo fuel n acc = digitsStr n ++ acc := by
  intro fuel
  induction fuel with
  | zero =>
    intro n acc h
    have hn : n = 0 := by omega
    subst hn
    rw [digitsStr]
    rfl
  | succ fuel ih =>
    intro n acc h
    unfold natDigitsGo
    split
    · next hlt =>
      rw [digitsStr, if_pos hlt]
      rfl
    · next hge =>
      rw [ih (n / 10) _ (by omega)]
      conv_rhs => rw [digitsStr]
      rw [if_neg hge, List.append_assoc]
      rfl

theorem natDigits_eq (n : Nat) : natDigits n = digitsStr n := by
  unfold natDigits
  rw [natDigitsGo_eq n n [] (Nat.le_refl n), List.append_nil]

theorem takeWhile_digits {l : List Char} (h : ∀ c ∈ l, c.isDigit = true) :
    l.takeWhile Char.isDigit = l := by
  induction l with
  | nil => rfl
  | cons c t ih =>
    rw [List.takeWhile_cons, if_pos (h c (List.mem_cons_self c t))]
    rw [ih fun c hc => h c (List.mem_cons_of_mem _ hc)]

theorem str_to_int_cons (c : Char) (l : List Char) :
    str_to_int ⟨c :: l⟩ =
      if c = '-' then -Int.ofNat (parseDigits (l.takeWhile Char.isDigit))
      else if c = '+' then Int.ofNat (parseDigits (l.takeWhile Char.isDigit))
      else Int.ofNat (parseDigits ((c :: l).takeWhile Char.isDigit)) := rfl

theorem str_to_int_int_to_str (n : Int) : str_to_int (int_to_str n) = n := by
  unfold int_to_str
  split
  · next hneg =>
    rw [natDigits_eq, str_to_int_cons, if_pos rfl,
      takeWhile_digits (digitsStr_digits n.natAbs), parseDigits_digitsStr,
      Int.ofNat_eq_natCast]
    omega
  · next hpos =>
    rw [natDigits_eq]
    obtain ⟨c, t, hct⟩ : ∃ c t, digitsStr n.toNat = c :: t := by
      cases hd : digitsStr n.toNat with
      | nil => exact absurd hd (digitsStr_ne_nil _)
      | cons c t => exact ⟨c, t, rfl⟩
    have hcd : c.isDigit = true :=
      digitsStr_digits n.toNat c (by rw [hct]; exact List.mem_cons_self c t)
    have hsign := isDigit_not_sign hcd
    rw [hct, str_to_int_cons, if_neg hsign.1, if_neg hsign.2, ← hct,
      takeWhile_digits (digitsStr_digits n.toNat), parseDigits_digitsStr,
      Int.ofNat_eq_natCast]
    omega

theorem unknown_append (t : String) :
    "UNKNOWN_" ++ t = (⟨unknownTag ++ t.data⟩ : String) := rfl

theorem stripUnknown_unknown (s : String) :
    stripUnknown ⟨unknownTag ++ s.data⟩ = some s := by
  have ht : (unknownTag ++ s.data).take 8 = unknownTag := by
    have h8 : unknownTag.length = 8 := rfl
    rw [← h8, List.take_left]
  have hd : (unknownTag ++ s.data).drop 8 = s.data := by
    have h8 : unknownTag.length = 8 := rfl
    rw [← h8, List.drop_left]
  show (if (unknownTag ++ s.data).take 8 = unknownTag
      then some (⟨(unknownTag ++ s.data).drop 8⟩ : String) else none) = some s
  rw [if_pos ht, hd]

theorem round_trip_none (c : Int) :
    get_keycode_in none (get_keyname_in none c true) = c := by
  have h1 : get_keyname_in none c true = "UNKNOWN_" ++ int_to_str c := rfl
  rw [h1, unknown_append]
  have h2 : get_keycode_in none ⟨unknownTag ++ (int_to_str c).data⟩
      = (match stripUnknown ⟨unknownTag ++ (int_to_str c).data⟩ with
         | some digits => str_to_int digits
         | none => 0) := rfl
  rw [h2, stripUnknown_unknown]
  exact str_to_int_int_to_str c

theorem round_trip_some (mpc : List (Int × String)) (mpn : List (String × Int))
    (h1 : ∀ (c : Int) (n : String), findA mpc c = some n → findA mpn n = some c)
    (h2 : ∀ (s : String) (k : Int), findA mpn s = some k → stripUnknown s = none)
    (c : Int) :
    get_keycode_in (some mpn) (get_keyname_in (some mpc) c true) = c := by
  cases hf : findA mpc c with
  | some name =>
    have hn : get_keyname_in (some mpc) c true = name := by
      unfold get_keyname_in
      simp [hf]
    rw [hn]
    unfold get_keycode_in
    simp [h1 c name hf]
  | none =>
    have hn : get_keyname_in (some mpc) c true = "UNKNOWN_" ++ int_to_str c := by
      unfold get_keyname_in
      simp [hf]
    rw [hn, unknown_append]
    unfold get_keycode_in
    cases hg : findA mpn ⟨unknownTag ++ (int_to_str c).data⟩ with
    | some k =>
      have := h2 _ k hg
      rw [stripUnknown_unknown] at this
      cases this
    | none =>
      simp only [Option.some_bind, hg, stripUnknown_unknown]
      exact str_to_int_int_to_str c

/-- C6: for every device family and every integer code, resolving the
portable name produced for the code back through the registry yields the
code again, provided the family's tables are inverse-consistent (whenever
the code→name table maps `c` to `n`, the name→code table maps `n` back to
`c` — the invariant maintained by the `add_*_keycode_pair` registrations)
and no registered name carries the `UNKNOWN_` marker. -/
theorem C6_keycode_round_trip (m : input_manager) (f : input_event_t)
    (h1 : ∀ (mpc : List (Int × String)) (mpn : List (String × Int)) (c : Int) (n : String),
        keycode_to_keyname_map m f = some mpc → keyname_to_keycode_map m f = some mpn →
        findA mpc c = some n → findA mpn n = some c)
    (h2 : ∀ (mpn : List (String × Int)) (s : String) (k : Int),
        keyname_to_keycode_map m f = some mpn → findA mpn s = some k →
        stripUnknown s = none) :
    ∀ c : Int, get_keycode m f (get_keyname m c f true) = c := by
  intro c
  unfold get_keycode get_keyname
  cases f with
  | error => exact round_trip_none c
  | timeout => exact round_trip_none c
  | keyboard_char =>
    exact round_trip_some _ _ (fun c n => h1 _ _ c n rfl rfl) (fun s k => h2 _ s k rfl) c
  | keyboard_code =>
    exact round_trip_some _ _ (fun c n => h1 _ _ c n rfl rfl) (fun s k => h2 _ s k rfl) c
  | gamepad =>
    exact round_trip_some _ _ (fun c n => h1 _ _ c n rfl rfl) (fun s k => h2 _ s k rfl) c
  | mouse =>
    exact round_trip_some _ _ (fun c n => h1 _ _ c n rfl rfl) (fun s k => h2 _ s k rfl) c

theorem C6_keycode_round_trip_witness :
    get_keyname registry_manager 65 input_event_t.keyboard_char true = "A"
    ∧ get_keycode registry_manager input_event_t.keyboard_char "A" = 65
    ∧ get_keyname registry_manager 9999 input_event_t.keyboard_char true = "UNKNOWN_9999"
    ∧ get_keycode registry_manager input_event_t.keyboard_char "UNKNOWN_9999" = 9999
    ∧ get_keycode registry_manager input_event_t.keyboard_char
        (get_keyname registry_manager 65 input_event_t.keyboard_char true) = 65
    ∧ get_keycode registry_manager input_event_t.keyboard_char
        (get_keyname registry_manager 9999 input_event_t.keyboard_char true) = 9999 := by
  have h := C6_keycode_round_trip registry_manager input_event_t.keyboard_char ?h1 ?h2
  case h1 =>
    intro mpc mpn c n hmc hmn hf
    injection hmc with hmc
    injection hmn with hmn
    subst hmc
    subst hmn
    rw [show registry_manager.keyboard_char_keycode_to_keyname
      = [((65 : Int), "A")] from rfl] at hf
    simp only [findA] at hf
    by_cases hc : (65 : Int) = c
    · rw [if_pos hc] at hf
      injection hf with hf
      subst hf
      rw [← hc]
      decide
    · rw [if_neg hc] at hf
      cases hf
  case h2 =>
    intro mpn s k hmn hf
    injection hmn with hmn
    subst hmn
    rw [show registry_manager.keyboard_char_keyname_to_keycode
      = [("A", (65 : Int))] from rfl] at hf
    simp only [findA] at hf
    by_cases hs : "A" = s
    · subst hs
      decide
    · rw [if_neg hs] at hf
      cases hf
  exact ⟨by decide, by decide, by decide, by decide, h 65, h 9999⟩

end Input
